import Mathlib

/-!
Verification of the route-optimization core of `best_route` (src/main.rs).

The embedding maps the Rust source as follows:
* `f64` values are modelled as real numbers (`ℝ`); `f64::MAX` becomes the
  explicit constant `f64MAX`.
* `HashMap<i32, Place>` (the point registry, which is iterated) is an
  association list `List (Int × Place)`; `HashMap<i32, HashMap<i32, f64>>`
  (the distance table, which is only ever read by key lookup) is a lookup
  function `Int → Option (Int → Option ℝ)`.
* panics (`assert_eq!`, `.unwrap()`) become `Except`/`Option` results:
  `Place::new` / `Cloud::add` return `Except LabelError _`, and the heuristic
  solver, whose comparator unwraps distance lookups, returns `Option`.
* `itertools` `permutations` is modelled by `List.permutations` (the claims
  never depend on the enumeration order, only on each permutation of the
  input appearing exactly once).
* `Vec::sort_by` is modelled by `List.insertionSort` with the comparator
  translated to a relation (the claims never depend on tie-breaking order).
-/

/- ## Geometry (`Position`, `Position::distance`) -/

/-- Rust `struct Position { x: f64, y: f64, z: f64 }`. -/
structure Position where
  x : ℝ
  y : ℝ
  z : ℝ
  deriving Inhabited

/-- Rust `Position::distance`: Euclidean norm of the componentwise difference,
`((a.x - b.x).powi(2) + (a.y - b.y).powi(2) + (a.z - b.z).powi(2)).sqrt()`. -/
noncomputable def Position.distance (a b : Position) : ℝ :=
  Real.sqrt ((a.x - b.x) ^ 2 + (a.y - b.y) ^ 2 + (a.z - b.z) ^ 2)

/- ## Label parsing (`Place::new`) -/

/-- The two label-parsing failures of `Place::new`: the
`assert_eq!(6, tokens.len())` panic and the Roman-numeral `.unwrap()` panic. -/
inductive LabelError where
  | MalformedLabel : LabelError
  | InvalidOrdinal : LabelError
  deriving DecidableEq, Repr

/-- Worker for `tokenize`: scan the characters, collecting the current token
in reverse in `acc` and emitting it at each whitespace run or at the end. -/
def wsTokensAux : List Char → List Char → List String
  | [], acc => if acc.isEmpty then [] else [String.mk acc.reverse]
  | ch :: rest, acc =>
    if ch.isWhitespace then
      if acc.isEmpty then wsTokensAux rest []
      else String.mk acc.reverse :: wsTokensAux rest []
    else wsTokensAux rest (ch :: acc)

/-- Rust `name.trim().split_whitespace()`: the maximal whitespace-free runs of
the name, in order (leading/trailing whitespace drops out on its own). -/
def tokenize (name : String) : List String :=
  wsTokensAux name.toList []

/-- Value of one Roman-numeral character, as the `septem` crate reads it. -/
def romanCharValue : Char → Option Nat
  | 'I' => some 1
  | 'V' => some 5
  | 'X' => some 10
  | 'L' => some 50
  | 'C' => some 100
  | 'D' => some 500
  | 'M' => some 1000
  | _ => none

/-- Accumulate Roman digit values left to right with the subtractive rule. -/
def romanAccum : List Nat → Nat
  | [] => 0
  | [v] => v
  | v :: w :: rest => if v < w then romanAccum (w :: rest) - v else v + romanAccum (w :: rest)

/-- Model of `tokens[1].parse::<Roman>()` from the `septem` crate: every
character must be a Roman digit, the value is read with the subtractive rule;
the empty string is rejected. -/
def romanValue (s : String) : Option Nat :=
  match s.toList with
  | [] => none
  | cs => (cs.mapM romanCharValue).map romanAccum

/-- Worker for `parseU32`: fold decimal digits, rejecting any other
character. -/
def parseU32Aux : List Char → Nat → Option Nat
  | [], acc => some acc
  | ch :: rest, acc =>
    if ch.isDigit then parseU32Aux rest (acc * 10 + (ch.toNat - 48)) else none

/-- Model of `tokens[5].parse::<u32>()`: decimal digits only, the empty string
rejected (the `u32` overflow bound is not modelled; `Place::new` substitutes 0
on any failure anyway). -/
def parseU32 (s : String) : Option Nat :=
  match s.toList with
  | [] => none
  | cs => parseU32Aux cs 0

/-- The label key `(cloud_number, belt_number)` that `Place::new` extracts from
a name: exactly six whitespace tokens (else `MalformedLabel`), token 1 a Roman
numeral (else `InvalidOrdinal`), token 5 a `u32` defaulting to 0 on failure. -/
def parseLabel (name : String) : Except LabelError (Nat × Nat) :=
  let tokens := tokenize name
  if h : tokens.length = 6 then
    match romanValue (tokens.get ⟨1, by omega⟩) with
    | none => Except.error LabelError.InvalidOrdinal
    | some g => Except.ok (g, (parseU32 (tokens.get ⟨5, by omega⟩)).getD 0)
  else Except.error LabelError.MalformedLabel

/-- Rust `struct Place`. -/
structure Place where
  id : Int
  name : String
  position : Position
  cloud_number : Nat
  belt_number : Nat

/-- Rust `Place::new`: parses the name into the sort key and builds the record;
its panics are surfaced as `Except.error`. -/
def Place.new (id : Int) (name : String) (position : Position) : Except LabelError Place :=
  match parseLabel name with
  | Except.error e => Except.error e
  | Except.ok (g, b) => Except.ok ⟨id, name, position, g, b⟩

/- ## The distance cache (`Cloud`) -/

/-- Rust `struct Cloud { places, distances }`. -/
structure Cloud where
  places : List (Int × Place)
  distances : Int → Option (Int → Option ℝ)

/-- Rust `Cloud::new`. -/
def Cloud.new : Cloud :=
  ⟨[], fun _ => none⟩

/-- One `self.distances.entry(k).or_insert(HashMap::new()).insert(dest, v)`
step on the nested lookup-function model of the distance table. -/
def storeOne (f : Int → Option (Int → Option ℝ)) (k dest : Int) (v : ℝ) :
    Int → Option (Int → Option ℝ) :=
  fun x =>
    if x = k then
      some (fun y => if y = dest then some v else ((f k).getD (fun _ => none)) y)
    else f x

/-- The distance loop of `Cloud::add`: for every existing `(dest, q)` in
`places`, store `distance(pos, q.position)` under both `(id, dest)` and
`(dest, id)`. -/
noncomputable def addDists (pos : Position) (id : Int) :
    List (Int × Place) → (Int → Option (Int → Option ℝ)) → (Int → Option (Int → Option ℝ))
  | [], f => f
  | (dest, q) :: rest, f =>
    addDists pos id rest
      (storeOne (storeOne f id dest (Position.distance pos q.position))
        dest id (Position.distance pos q.position))

/-- `HashMap::insert` on the association-list model of the point registry:
replace the entry with the same key in place, else append. -/
def placesInsert : List (Int × Place) → Int → Place → List (Int × Place)
  | [], id, p => [(id, p)]
  | (k, q) :: rest, id, p =>
    if k = id then (id, p) :: rest else (k, q) :: placesInsert rest id p

/-- Rust `Cloud::add`: build the `Place` (label parsing may fail), compute the
distances between the new position and every previously stored place, then
insert the place (silently replacing any old entry with the same id). -/
noncomputable def Cloud.add (c : Cloud) (id : Int) (name : String) (pos : Position) :
    Except LabelError Cloud :=
  match Place.new id name pos with
  | Except.error e => Except.error e
  | Except.ok belt =>
    Except.ok
      { places := placesInsert c.places id belt
        distances := addDists pos id c.places c.distances }

/-- Rust `Cloud::distance_between`: outer lookup, then inner lookup. -/
def Cloud.distance_between (c : Cloud) (a b : Int) : Option ℝ :=
  match c.distances a with
  | some m => m b
  | none => none

/-- Rust `Cloud::route_distance`: sum of `distance_between` over adjacent pairs,
`unwrap_or(0.0)` for a missing entry; empty and singleton routes score 0. -/
noncomputable def Cloud.route_distance (c : Cloud) : List Int → ℝ
  | [] => 0
  | [_] => 0
  | a :: b :: rest => (c.distance_between a b).getD 0 + c.route_distance (b :: rest)

/- ## The ordinal (baseline) route -/

/-- The comparator of `get_ids_sorted_by_name`: ascending by `cloud_number`,
ties broken by `belt_number`. -/
def keyLe (a b : Place) : Prop :=
  a.cloud_number < b.cloud_number ∨
    (a.cloud_number = b.cloud_number ∧ a.belt_number ≤ b.belt_number)

instance : DecidableRel keyLe := fun a b =>
  decidable_of_iff
    (a.cloud_number < b.cloud_number ∨
      (a.cloud_number = b.cloud_number ∧ a.belt_number ≤ b.belt_number))
    Iff.rfl

instance : IsTotal Place keyLe :=
  ⟨by intro a b; unfold keyLe; omega⟩

instance : IsTrans Place keyLe :=
  ⟨by intro a b c; unfold keyLe; omega⟩

/-- Rust `Cloud::get_ids_sorted_by_name`: clone the stored places, sort them by
`(cloud_number, belt_number)`, return their ids. -/
def Cloud.get_ids_sorted_by_name (c : Cloud) : List Int :=
  (List.insertionSort keyLe (c.places.map Prod.snd)).map Place.id

/-- Rust `Cloud::get_ordinal_route`. -/
noncomputable def Cloud.get_ordinal_route (c : Cloud) : ℝ × List Int :=
  (c.route_distance c.get_ids_sorted_by_name, c.get_ids_sorted_by_name)

/- ## The heuristic solver (`lazzy_walker`) -/

/-- Model of `f64::MAX`, the initial value of the running minima of both
solvers. -/
noncomputable def f64MAX : ℝ :=
  2 ^ 1024 - 2 ^ 971

/-- The comparator `d_b.partial_cmp(&d_a)` of `lazzy_walker_impl`: descending
by the cached distance (on `ℝ` the `partial_cmp` unwrap cannot fail). -/
def descRel (a b : ℝ × Int) : Prop :=
  b.1 ≤ a.1

noncomputable instance : DecidableRel descRel := fun a b =>
  inferInstanceAs (Decidable (b.1 ≤ a.1))

instance : IsTotal (ℝ × Int) descRel :=
  ⟨fun a b => (le_total b.1 a.1).elim Or.inl Or.inr⟩

instance : IsTrans (ℝ × Int) descRel :=
  ⟨fun _ _ _ h1 h2 => le_trans h2 h1⟩

/-- The distance lookups made by the sort comparator inside
`lazzy_walker_impl`, keyed for sorting; a `None` models the `.unwrap()` panic
on a missing entry. -/
def lookupAll (c : Cloud) (point : Int) : List Int → Option (List (ℝ × Int))
  | [] => some []
  | a :: rest =>
    match c.distance_between point a, lookupAll c point rest with
    | some d, some ks => some ((d, a) :: ks)
    | _, _ => none

/-- Length is preserved by `lookupAll`. -/
theorem lookupAll_length {c : Cloud} {point : Int} :
    ∀ {l : List Int} {ks : List (ℝ × Int)}, lookupAll c point l = some ks →
      ks.length = l.length := by
  intro l
  induction l with
  | nil => intro ks h; simp [lookupAll] at h; simp [← h]
  | cons a rest ih =>
    intro ks h
    simp only [lookupAll] at h
    rcases hd : c.distance_between point a with _ | d <;> rw [hd] at h
    · exact absurd h (by simp)
    · rcases hr : lookupAll c point rest with _ | ks2 <;> rw [hr] at h
      · exact absurd h (by simp)
      · simp at h
        simp [← h, ih hr]

/-- The extracted ids of `lookupAll` are the queried ids. -/
theorem lookupAll_map_snd {c : Cloud} {point : Int} :
    ∀ {l : List Int} {ks : List (ℝ × Int)}, lookupAll c point l = some ks →
      ks.map Prod.snd = l := by
  intro l
  induction l with
  | nil => intro ks h; simp [lookupAll] at h; simp [← h]
  | cons a rest ih =>
    intro ks h
    simp only [lookupAll] at h
    rcases hd : c.distance_between point a with _ | d <;> rw [hd] at h
    · exact absurd h (by simp)
    · rcases hr : lookupAll c point rest with _ | ks2 <;> rw [hr] at h
      · exact absurd h (by simp)
      · simp at h
        simp [← h, ih hr]

/-- Rust `Cloud::lazzy_walker_impl`: if no point remains, score the route;
otherwise sort the remaining points by descending cached distance from the
route's last point, pop the closest, append it and recurse.  `none` models a
panic of the comparator's `.unwrap()`; an empty `route` (on which the source
would recurse forever, a situation `lazzy_walker` never creates) is also
mapped to `none`. -/
noncomputable def Cloud.lazzy_walker_impl (c : Cloud) (route : List Int) (points : List Int) :
    Option (ℝ × List Int) :=
  match points with
  | [] => some (c.route_distance route, route)
  | p :: rest =>
    match route.getLast? with
    | none => none
    | some point =>
      match hk : lookupAll c point (p :: rest) with
      | none => none
      | some keyed =>
        match (List.insertionSort descRel keyed).getLast? with
        | none => none
        | some closest =>
          c.lazzy_walker_impl (route ++ [closest.2])
            (((List.insertionSort descRel keyed).dropLast).map Prod.snd)
termination_by points.length
decreasing_by
  have h1 := lookupAll_length hk
  have h2 : (List.insertionSort descRel keyed).length = keyed.length :=
    (List.perm_insertionSort descRel keyed).length_eq
  simp only [List.length_map, List.length_dropLast, h2, h1, List.length_cons]
  omega

/-- The multi-start loop of `Cloud::lazzy_walker`: `count` runs down from the
number of points; each iteration pops the front start, runs the greedy walk
from it, keeps the better result and pushes the start to the back. -/
noncomputable def Cloud.lwLoop (c : Cloud) :
    Nat → List Int → ℝ × List Int → Option (ℝ × List Int)
  | 0, _, acc => some acc
  | Nat.succ count, starts, acc =>
    match starts with
    | [] => c.lwLoop count starts acc
    | point :: tail =>
      match c.lazzy_walker_impl [point] tail with
      | none => none
      | some (dist, route) =>
        c.lwLoop count (tail ++ [point])
          (if dist < acc.1 then (dist, route) else acc)

/-- Rust `Cloud::lazzy_walker`: multi-start nearest neighbour over every
starting point, beginning from `(f64::MAX, vec![])`. -/
noncomputable def Cloud.lazzy_walker (c : Cloud) (points : List Int) : Option (ℝ × List Int) :=
  c.lwLoop points.length points (f64MAX, [])

/- ## The exact solver (`brute_force`) -/

/-- One iteration of the `brute_force` loop: skip a path whose reversal was
already scored, otherwise record the reversal, score the path and keep it if
it beats the running minimum.  State: (minimal, route, calculated). -/
noncomputable def Cloud.bfStep (c : Cloud) (st : ℝ × List Int × List (List Int))
    (path : List Int) : ℝ × List Int × List (List Int) :=
  if path ∈ st.2.2 then st
  else
    let d := c.route_distance path
    if d < st.1 then (d, path, path.reverse :: st.2.2)
    else (st.1, st.2.1, path.reverse :: st.2.2)

/-- The full fold of `Cloud::brute_force` over all permutations, starting from
`(f64::MAX, vec![], HashSet::new())`. -/
noncomputable def Cloud.bf_fold (c : Cloud) (points : List Int) :
    ℝ × List Int × List (List Int) :=
  points.permutations.foldl (c.bfStep) (f64MAX, [], [])

/-- Rust `Cloud::brute_force`: the minimum and its route. -/
noncomputable def Cloud.brute_force (c : Cloud) (points : List Int) : ℝ × List Int :=
  ((c.bf_fold points).1, (c.bf_fold points).2.1)

/-- The de-duplication skeleton of the `brute_force` loop, instrumented with
the number of `route_distance` evaluations (the scoring never feeds back into
which paths are skipped, so this carries only the `calculated` set and the
count). -/
def dedupStep (st : List (List Int) × Nat) (path : List Int) : List (List Int) × Nat :=
  if path ∈ st.1 then st else (path.reverse :: st.1, st.2 + 1)

/-- How many permutations `brute_force` scores on a given point list. -/
def bf_evals (points : List Int) : Nat :=
  (points.permutations.foldl dedupStep ([], 0)).2

/-- The list of paths the de-duplicating loop actually scores, given the
already-recorded reversals `cal`. -/
def processedList : List (List Int) → List (List Int) → List (List Int)
  | _, [] => []
  | cal, p :: rest =>
    if p ∈ cal then processedList cal rest
    else p :: processedList (p.reverse :: cal) rest

/- ## The route selector (`get_best_route`) -/

/-- Rust `Cloud::get_best_route`: dispatch on the point count; `none` can only
arise from the heuristic branch (a `lazzy_walker` panic). -/
noncomputable def Cloud.get_best_route (c : Cloud) : Option (ℝ × List Int) :=
  let points := c.get_ids_sorted_by_name
  if points.isEmpty then some (0, [])
  else if points.length = 1 then some (0, points)
  else if points.length = 2 then some (c.route_distance points, points)
  else if points.length < 10 then some (c.brute_force points)
  else c.lazzy_walker points

/- ## Reachable caches -/

/-- The caches reachable from `Cloud::new` by successful `add` calls. -/
inductive Reachable : Cloud → Prop where
  | nil : Reachable Cloud.new
  | step {c c2 : Cloud} {id : Int} {name : String} {pos : Position} :
      Reachable c → c.add id name pos = Except.ok c2 → Reachable c2

/-- Fold a list of `add` calls, stopping at the first failure. -/
noncomputable def addAll : Cloud → List (Int × String × Position) → Except LabelError Cloud
  | c, [] => Except.ok c
  | c, (id, name, pos) :: rest =>
    match c.add id name pos with
    | Except.error e => Except.error e
    | Except.ok c2 => addAll c2 rest

/-- Successful `addAll` runs end in reachable caches. -/
theorem reachable_addAll :
    ∀ {l : List (Int × String × Position)} {c c2 : Cloud}, Reachable c →
      addAll c l = Except.ok c2 → Reachable c2 := by
  intro l
  induction l with
  | nil =>
    intro c c2 hr h
    simp only [addAll] at h
    cases h
    exact hr
  | cons t rest ih =>
    intro c c2 hr h
    obtain ⟨id, name, pos⟩ := t
    simp only [addAll] at h
    rcases ha : c.add id name pos with e | c3 <;> rw [ha] at h
    · exact absurd h (by simp)
    · exact ih (Reachable.step hr ha) h

/- ## Concrete caches used as witnesses -/

/-- A place literal with the given id and sort key (used by witnesses that do
not exercise label parsing). -/
def wPlace (id : Int) (cn bn : Nat) : Place :=
  ⟨id, "w", ⟨0, 0, 0⟩, cn, bn⟩

/-- One-point witness cache. -/
def wCloud1 : Cloud :=
  ⟨[(1, wPlace 1 1 1)], fun _ => none⟩

/-- Two-point witness cache with stored distance 1 between the two points. -/
def wCloud2 : Cloud :=
  ⟨[(1, wPlace 1 1 1), (2, wPlace 2 2 1)],
    fun a => some (fun b => if a = b then none else some 1)⟩

/-- Three-point witness cache in which every pairwise stored distance is 1
(fully dense and symmetric by construction). -/
def wCloud3 : Cloud :=
  ⟨[(1, wPlace 1 1 1), (2, wPlace 2 2 1), (3, wPlace 3 3 1)],
    fun _ => some (fun _ => some 1)⟩

/-- Ten-point witness cache, fully dense with constant distance 1. -/
def wCloud10 : Cloud :=
  ⟨[(1, wPlace 1 1 1), (2, wPlace 2 2 1), (3, wPlace 3 3 1), (4, wPlace 4 4 1),
    (5, wPlace 5 5 1), (6, wPlace 6 6 1), (7, wPlace 7 7 1), (8, wPlace 8 8 1),
    (9, wPlace 9 9 1), (10, wPlace 10 10 1)],
    fun _ => some (fun _ => some 1)⟩

/- ## C2: the route selector dispatches exactly on the point count -/

/-- C2: `get_best_route` dispatches on the size of the current point list:
0 points give `(0, [])`; 1 point gives `(0, [id])`; 2 points give the stored
distance between them with the two ids; 2 < n < 10 delegates to the exact
solver `brute_force`; n ≥ 10 delegates to the heuristic solver
`lazzy_walker`, the threshold being fixed at 10. -/
theorem get_best_route_dispatch (c : Cloud) :
    (c.get_ids_sorted_by_name = [] → c.get_best_route = some (0, [])) ∧
    (∀ a, c.get_ids_sorted_by_name = [a] → c.get_best_route = some (0, [a])) ∧
    (∀ a b d, c.get_ids_sorted_by_name = [a, b] → c.distance_between a b = some d →
      c.get_best_route = some (d, [a, b])) ∧
    (2 < c.get_ids_sorted_by_name.length → c.get_ids_sorted_by_name.length < 10 →
      c.get_best_route = some (c.brute_force c.get_ids_sorted_by_name)) ∧
    (10 ≤ c.get_ids_sorted_by_name.length →
      c.get_best_route = c.lazzy_walker c.get_ids_sorted_by_name) := by
  refine ⟨?_, ?_, ?_, ?_, ?_⟩
  · intro h
    simp [Cloud.get_best_route, h]
  · intro a h
    simp [Cloud.get_best_route, h]
  · intro a b d h hd
    simp [Cloud.get_best_route, h, Cloud.route_distance, hd]
  · intro h1 h2
    have h0 : ¬ c.get_ids_sorted_by_name = [] := by
      intro h; rw [h] at h1; simp at h1
    simp only [Cloud.get_best_route, List.isEmpty_eq_true]
    rw [if_neg h0, if_neg (by omega), if_neg (by omega), if_pos h2]
  · intro h1
    have h0 : ¬ c.get_ids_sorted_by_name = [] := by
      intro h; rw [h] at h1; simp at h1
    simp only [Cloud.get_best_route, List.isEmpty_eq_true]
    rw [if_neg h0, if_neg (by omega), if_neg (by omega), if_neg (by omega)]

/-- Witness for C2: all five branches exercised on concrete caches of sizes
0, 1, 2, 3 and 10. -/
theorem get_best_route_dispatch_witness :
    Cloud.new.get_best_route = some (0, []) ∧
    wCloud1.get_best_route = some (0, [1]) ∧
    wCloud2.get_best_route = some (1, [1, 2]) ∧
    wCloud3.get_best_route = some (wCloud3.brute_force wCloud3.get_ids_sorted_by_name) ∧
    wCloud10.get_best_route = wCloud10.lazzy_walker wCloud10.get_ids_sorted_by_name :=
  ⟨(get_best_route_dispatch Cloud.new).1 rfl,
    (get_best_route_dispatch wCloud1).2.1 1 rfl,
    (get_best_route_dispatch wCloud2).2.2.1 1 2 1 rfl rfl,
    (get_best_route_dispatch wCloud3).2.2.2.1 (by decide) (by decide),
    (get_best_route_dispatch wCloud10).2.2.2.2 (by decide)⟩

/- ## C5: label errors are raised by `add` itself (corrected) -/

/-- Counterexample to C5 as stated: adding a point whose name does not fit the
six-token convention does not succeed; `add` itself raises `MalformedLabel`
(the claim asserts `add` never raises a label error). -/
theorem add_malformed_name_errors :
    Cloud.new.add 1 "bad name" ⟨0, 0, 0⟩ = Except.error LabelError.MalformedLabel := by
  rfl

/-- C5 amended: `MalformedLabel` / `InvalidOrdinal` are raised exactly when
label parsing (`Place::new`) rejects the name of a point being added; the
scorer and both solvers operate purely on ids and stored distances and cannot
raise them (they do not return label errors at all). -/
theorem add_error_iff_label_error (c : Cloud) (id : Int) (name : String)
    (pos : Position) (e : LabelError) :
    c.add id name pos = Except.error e ↔ Place.new id name pos = Except.error e := by
  unfold Cloud.add
  rcases h : Place.new id name pos with e2 | belt <;> simp

/-- Witness for C5's amended claim: a six-token name with an invalid Roman
numeral fails with `InvalidOrdinal`, via `add` exactly as via `Place::new`. -/
theorem add_error_iff_label_error_witness :
    Cloud.new.add 2 "System Q - Asteroid Belt 1" ⟨0, 0, 0⟩ =
        Except.error LabelError.InvalidOrdinal ↔
      Place.new 2 "System Q - Asteroid Belt 1" ⟨0, 0, 0⟩ =
        Except.error LabelError.InvalidOrdinal :=
  add_error_iff_label_error Cloud.new 2 "System Q - Asteroid Belt 1" ⟨0, 0, 0⟩
    LabelError.InvalidOrdinal

/- ## C6: fail-soft scoring -/

/-- C6: `route_distance` is total and sums, over all adjacent pairs, the
cached distance with 0 substituted for an absent entry; the empty route and
every singleton route score exactly 0. -/
theorem route_distance_fail_soft (c : Cloud) :
    c.route_distance [] = 0 ∧
    (∀ a, c.route_distance [a] = 0) ∧
    (∀ ids, c.route_distance ids =
      ((ids.zip ids.tail).map (fun p => (c.distance_between p.1 p.2).getD 0)).sum) := by
  refine ⟨rfl, fun a => rfl, fun ids => ?_⟩
  induction ids with
  | nil => rfl
  | cons a t ih =>
    cases t with
    | nil => simp [Cloud.route_distance]
    | cons b t2 =>
      rw [Cloud.route_distance, ih]
      simp

/- ## Route distances of reversed routes (needs symmetry of the cache) -/

/-- Appending one id adds the distance from the old last id (if any). -/
theorem route_distance_append_last (c : Cloud) :
    ∀ (l : List Int) (a : Int), c.route_distance (l ++ [a]) =
      c.route_distance l +
        (match l.getLast? with
          | none => 0
          | some x => (c.distance_between x a).getD 0) := by
  intro l
  induction l with
  | nil => intro a; simp [Cloud.route_distance]
  | cons x t ih =>
    intro a
    cases t with
    | nil => simp [Cloud.route_distance]
    | cons y t2 =>
      have hL : c.route_distance ((x :: y :: t2) ++ [a]) =
          (c.distance_between x y).getD 0 + c.route_distance ((y :: t2) ++ [a]) := by
        show c.route_distance (x :: y :: (t2 ++ [a])) =
          (c.distance_between x y).getD 0 + c.route_distance (y :: (t2 ++ [a]))
        rw [Cloud.route_distance]
      rw [hL, ih a, Cloud.route_distance, List.getLast?_cons_cons]
      ring

/-- With a symmetric distance table, a route and its reversal score equally. -/
theorem route_distance_reverse (c : Cloud)
    (hsym : ∀ a b, c.distance_between a b = c.distance_between b a) :
    ∀ l : List Int, c.route_distance l.reverse = c.route_distance l := by
  intro l
  induction l with
  | nil => rfl
  | cons a t ih =>
    rw [List.reverse_cons, route_distance_append_last, ih, List.getLast?_reverse]
    cases t with
    | nil => simp [Cloud.route_distance]
    | cons b t2 =>
      rw [Cloud.route_distance]
      simp only [List.head?_cons]
      rw [hsym b a]
      ring

/- ## Folded minima -/

/-- Pulling one element out of the initial value of a `foldr min`. -/
theorem foldr_min_init_comm : ∀ (l : List ℝ) (i j : ℝ),
    l.foldr min (min i j) = min (l.foldr min j) i := by
  intro l
  induction l with
  | nil => intro i j; simp [min_comm]
  | cons a t ih =>
    intro i j
    simp only [List.foldr_cons, ih]
    rw [min_assoc]

/-- The folded minimum is at most each mapped element. -/
theorem foldr_min_le_mem (f : List Int → ℝ) (i : ℝ) :
    ∀ {P : List (List Int)} {a : List Int}, a ∈ P → (P.map f).foldr min i ≤ f a := by
  intro P
  induction P with
  | nil => intro a h; cases h
  | cons p t ih =>
    intro a h
    rcases List.mem_cons.mp h with h1 | h2
    · subst h1; exact min_le_left _ _
    · exact le_trans (min_le_right _ _) (ih h2)

/-- The folded minimum is at most its initial value. -/
theorem foldr_min_le_init (f : List Int → ℝ) (i : ℝ) :
    ∀ P : List (List Int), (P.map f).foldr min i ≤ i := by
  intro P
  induction P with
  | nil => simp
  | cons p t ih => exact le_trans (min_le_right _ _) ih

/-- Folding the minimum over one more path at the end. -/
theorem foldr_min_append (f : List Int → ℝ) (i : ℝ) (P : List (List Int)) (p : List Int) :
    ((P ++ [p]).map f).foldr min i = min ((P.map f).foldr min i) (f p) := by
  rw [List.map_append, List.foldr_append]
  simp only [List.map_cons, List.map_nil, List.foldr_cons, List.foldr_nil]
  exact foldr_min_init_comm _ _ _

/- ## The brute-force fold invariant -/

/-- Invariant of the `brute_force` loop after the prefix `P` of the permutation
list has been processed: every recorded reversal is the reversal of a path of
`P`; the running minimum is the minimum of `f64::MAX` and all scores of `P`;
and the kept route is either still the initial one or a path of `P` scoring
the running minimum. -/
def BFInv (c : Cloud) (P : List (List Int)) (st : ℝ × List Int × List (List Int)) : Prop :=
  (∀ p ∈ st.2.2, p.reverse ∈ P) ∧
  st.1 = (P.map c.route_distance).foldr min f64MAX ∧
  ((st.1 = f64MAX ∧ st.2.1 = []) ∨ (st.2.1 ∈ P ∧ st.1 = c.route_distance st.2.1))

/-- One `bfStep` preserves the invariant (symmetry of the cache makes the
skipped paths score like their already-scored reversals). -/
theorem bfStep_inv (c : Cloud)
    (hsym : ∀ a b, c.distance_between a b = c.distance_between b a)
    (P : List (List Int)) (p : List Int) (st : ℝ × List Int × List (List Int))
    (h : BFInv c P st) : BFInv c (P ++ [p]) (c.bfStep st p) := by
  obtain ⟨h1, h2, h3⟩ := h
  by_cases hmem : p ∈ st.2.2
  · have hstep : c.bfStep st p = st := by simp [Cloud.bfStep, hmem]
    rw [hstep]
    refine ⟨fun q hq => List.mem_append_left _ (h1 q hq), ?_, ?_⟩
    · rw [foldr_min_append]
      have hrevP : p.reverse ∈ P := h1 p hmem
      have hle : (P.map c.route_distance).foldr min f64MAX ≤ c.route_distance p.reverse :=
        foldr_min_le_mem _ _ hrevP
      rw [route_distance_reverse c hsym p] at hle
      rw [min_eq_left hle, h2]
    · rcases h3 with hl | ⟨hm, he⟩
      · exact Or.inl hl
      · exact Or.inr ⟨List.mem_append_left _ hm, he⟩
  · by_cases hlt : c.route_distance p < st.1
    · have hstep : c.bfStep st p = (c.route_distance p, p, p.reverse :: st.2.2) := by
        simp [Cloud.bfStep, hmem, hlt]
      rw [hstep]
      refine ⟨?_, ?_, Or.inr ⟨List.mem_append_right _ (List.mem_singleton_self p), rfl⟩⟩
      · intro q hq
        rcases List.mem_cons.mp hq with h1q | h2q
        · subst h1q
          rw [List.reverse_reverse]
          exact List.mem_append_right _ (List.mem_singleton_self p)
        · exact List.mem_append_left _ (h1 q h2q)
      · rw [foldr_min_append, ← h2, min_eq_right (le_of_lt hlt)]
    · have hstep : c.bfStep st p = (st.1, st.2.1, p.reverse :: st.2.2) := by
        simp [Cloud.bfStep, hmem, hlt]
      rw [hstep]
      refine ⟨?_, ?_, ?_⟩
      · intro q hq
        rcases List.mem_cons.mp hq with h1q | h2q
        · subst h1q
          rw [List.reverse_reverse]
          exact List.mem_append_right _ (List.mem_singleton_self p)
        · exact List.mem_append_left _ (h1 q h2q)
      · rw [foldr_min_append, ← h2, min_eq_left (le_of_not_lt hlt)]
      · rcases h3 with hl | ⟨hm, he⟩
        · exact Or.inl hl
        · exact Or.inr ⟨List.mem_append_left _ hm, he⟩

/-- The whole fold preserves the invariant. -/
theorem bf_fold_inv (c : Cloud)
    (hsym : ∀ a b, c.distance_between a b = c.distance_between b a) :
    ∀ (L P : List (List Int)) (st : ℝ × List Int × List (List Int)),
      BFInv c P st → BFInv c (P ++ L) (L.foldl (c.bfStep) st) := by
  intro L
  induction L with
  | nil => intro P st h; simpa using h
  | cons p L2 ih =>
    intro P st h
    have happ : P ++ p :: L2 = (P ++ [p]) ++ L2 := by simp
    rw [happ, List.foldl_cons]
    exact ih (P ++ [p]) (c.bfStep st p) (bfStep_inv c hsym P p st h)

/- ## C1: the exact solver is optimal -/

/-- C1: on a (symmetric, as every reachable cache is) cache whose point list
has size strictly between 2 and 10, `brute_force` returns a route that is a
permutation of the current point ids, scored by `route_distance`, and whose
total distance is minimal among all permutations of those ids.  The last
hypothesis says some permutation scores below `f64::MAX`, the initial running
minimum of the loop. -/
theorem brute_force_optimal (c : Cloud)
    (hsym : ∀ a b, c.distance_between a b = c.distance_between b a)
    (hlow : 2 < c.get_ids_sorted_by_name.length)
    (hhigh : c.get_ids_sorted_by_name.length < 10)
    (hmax : ∃ p, p.Perm c.get_ids_sorted_by_name ∧ c.route_distance p < f64MAX) :
    (c.brute_force c.get_ids_sorted_by_name).2.Perm c.get_ids_sorted_by_name ∧
    (c.brute_force c.get_ids_sorted_by_name).1 =
      c.route_distance (c.brute_force c.get_ids_sorted_by_name).2 ∧
    ∀ q, q.Perm c.get_ids_sorted_by_name →
      (c.brute_force c.get_ids_sorted_by_name).1 ≤ c.route_distance q := by
  obtain ⟨p, hp, hplt⟩ := hmax
  have hinv := bf_fold_inv c hsym c.get_ids_sorted_by_name.permutations [] (f64MAX, [], [])
    ⟨fun q hq => absurd hq (List.not_mem_nil q), rfl, Or.inl ⟨rfl, rfl⟩⟩
  rw [List.nil_append] at hinv
  have hinv2 : BFInv c c.get_ids_sorted_by_name.permutations
      (c.bf_fold c.get_ids_sorted_by_name) := hinv
  obtain ⟨hi1, hi2, hi3⟩ := hinv2
  have hpmem : p ∈ c.get_ids_sorted_by_name.permutations := List.mem_permutations.mpr hp
  have hle : (c.bf_fold c.get_ids_sorted_by_name).1 ≤ c.route_distance p := by
    rw [hi2]
    exact foldr_min_le_mem _ _ hpmem
  have hltMAX : (c.bf_fold c.get_ids_sorted_by_name).1 < f64MAX := lt_of_le_of_lt hle hplt
  rcases hi3 with ⟨hEq, _⟩ | ⟨hmem, hscore⟩
  · rw [hEq] at hltMAX
    exact absurd hltMAX (lt_irrefl _)
  · simp only [Cloud.brute_force]
    refine ⟨List.mem_permutations.mp hmem, hscore, ?_⟩
    intro q hq
    rw [hi2]
    exact foldr_min_le_mem _ _ (List.mem_permutations.mpr hq)

/-- Witness for C1 on the three-point cache with constant stored distance 1:
the returned route is a permutation of the ids and its score is at most the
score of the explicitly given permutation. -/
theorem brute_force_optimal_witness :
    (wCloud3.brute_force wCloud3.get_ids_sorted_by_name).2.Perm [1, 2, 3] ∧
    (wCloud3.brute_force wCloud3.get_ids_sorted_by_name).1 ≤
      wCloud3.route_distance [3, 1, 2] := by
  have h := brute_force_optimal wCloud3 (fun a b => rfl) (by decide) (by decide)
    ⟨[1, 2, 3], by decide,
      by norm_num [Cloud.route_distance, Cloud.distance_between, wCloud3, f64MAX]⟩
  exact ⟨h.1, h.2.2 [3, 1, 2] (by decide)⟩

/- ## C7: the reversal de-duplication bound -/

/-- The instrumented count equals the number of processed (scored) paths. -/
theorem dedup_foldl_count :
    ∀ (L : List (List Int)) (cal : List (List Int)) (k : Nat),
      (L.foldl dedupStep (cal, k)).2 = k + (processedList cal L).length := by
  intro L
  induction L with
  | nil => intro cal k; simp [processedList]
  | cons p rest ih =>
    intro cal k
    rw [List.foldl_cons]
    by_cases hp : p ∈ cal
    · simp only [dedupStep, hp, if_pos, processedList, ih]
    · simp only [dedupStep, hp, if_neg, if_false, processedList, ih, List.length_cons]
      omega

/-- The `calculated` component of the real `brute_force` fold evolves exactly
like the instrumented de-duplication fold (the scores never influence it). -/
theorem bf_fold_cal_eq (c : Cloud) :
    ∀ (L : List (List Int)) (st : ℝ × List Int × List (List Int))
      (stc : List (List Int)) (k : Nat), st.2.2 = stc →
      (L.foldl (c.bfStep) st).2.2 = (L.foldl dedupStep (stc, k)).1 := by
  intro L
  induction L with
  | nil => intro st stc k h; simpa using h
  | cons p rest ih =>
    intro st stc k h
    rw [List.foldl_cons, List.foldl_cons]
    by_cases hp : p ∈ st.2.2
    · have h1 : c.bfStep st p = st := by simp [Cloud.bfStep, hp]
      have h2 : dedupStep (stc, k) p = (stc, k) := by simp [dedupStep, ← h, hp]
      rw [h1, h2]
      exact ih st stc k h
    · have h2 : dedupStep (stc, k) p = (p.reverse :: stc, k + 1) := by
        simp [dedupStep, ← h, hp]
      rw [h2]
      by_cases hlt : c.route_distance p < st.1
      · have h1 : c.bfStep st p = (c.route_distance p, p, p.reverse :: st.2.2) := by
          simp [Cloud.bfStep, hp, hlt]
        rw [h1]
        exact ih _ _ _ (by simp [h])
      · have h1 : c.bfStep st p = (st.1, st.2.1, p.reverse :: st.2.2) := by
          simp [Cloud.bfStep, hp, hlt]
        rw [h1]
        exact ih _ _ _ (by simp [h])

/-- Processed paths form a sublist of the input. -/
theorem processedList_sublist :
    ∀ (L cal : List (List Int)), List.Sublist (processedList cal L) L := by
  intro L
  induction L with
  | nil => intro cal; simp [processedList]
  | cons p rest ih =>
    intro cal
    by_cases hp : p ∈ cal
    · simp only [processedList, hp, if_pos]
      exact (ih cal).cons p
    · simp only [processedList, hp, if_neg, if_false]
      exact (ih (p.reverse :: cal)).cons₂ p

/-- A processed path was not previously recorded. -/
theorem mem_processedList_not_mem :
    ∀ (L cal : List (List Int)) (p : List Int), p ∈ processedList cal L → p ∉ cal := by
  intro L
  induction L with
  | nil => intro cal p h; simp [processedList] at h
  | cons q rest ih =>
    intro cal p h
    by_cases hq : q ∈ cal
    · rw [processedList, if_pos hq] at h
      exact ih cal p h
    · rw [processedList, if_neg hq] at h
      rcases List.mem_cons.mp h with h1 | h2
      · subst h1; exact hq
      · intro hmem
        exact ih _ p h2 (List.mem_cons_of_mem _ hmem)

/-- Two processed paths are never each other's (proper) reversals. -/
theorem processedList_no_reverse_pair :
    ∀ (L cal : List (List Int)) (p : List Int), p ∈ processedList cal L →
      p.reverse ∈ processedList cal L → p.reverse = p := by
  intro L
  induction L with
  | nil => intro cal p h; simp [processedList] at h
  | cons q rest ih =>
    intro cal p hp hpr
    by_cases hq : q ∈ cal
    · rw [processedList, if_pos hq] at hp hpr
      exact ih cal p hp hpr
    · rw [processedList, if_neg hq] at hp hpr
      rcases List.mem_cons.mp hp with hp1 | hp2
      · rcases List.mem_cons.mp hpr with hpr1 | hpr2
        · rw [hpr1, hp1]
        · exfalso
          have hnot := mem_processedList_not_mem _ _ _ hpr2
          exact hnot (by rw [hp1]; exact List.mem_cons_self _ _)
      · rcases List.mem_cons.mp hpr with hpr1 | hpr2
        · exfalso
          have hnot := mem_processedList_not_mem _ _ _ hp2
          have hpq : p = q.reverse := by rw [← hpr1, List.reverse_reverse]
          exact hnot (by rw [hpq]; exact List.mem_cons_self _ _)
        · exact ih _ p hp2 hpr2

/-- A duplicate-free list of length at least 2 differs from its reversal. -/
theorem reverse_ne_self_of_nodup (l : List Int) (hnd : l.Nodup) (hlen : 2 ≤ l.length) :
    l.reverse ≠ l := by
  intro heq
  match l, hnd, hlen with
  | a :: b :: t2, hnd, _ =>
    have hhead : (a :: b :: t2).reverse.head? = (a :: b :: t2).getLast? :=
      List.head?_reverse _
    rw [heq] at hhead
    have hlast : (b :: t2).getLast? = some a := by
      have h3 : (a :: b :: t2).getLast? = some a := by
        rw [← hhead]
        rfl
      rw [List.getLast?_cons_cons] at h3
      exact h3
    have hmem : a ∈ b :: t2 := List.mem_of_getLast?_eq_some hlast
    have : a ∉ b :: t2 := (List.nodup_cons.mp hnd).1
    exact this hmem

/-- C7: the exact solver scores at most `n!/2` permutations: the instrumented
count satisfies `2 * count ≤ n!` for a duplicate-free point list with at least
two points, and the instrumentation is faithful — the `calculated` set of the
real `brute_force` fold evolves exactly as in the instrumented fold. -/
theorem brute_force_eval_count (c : Cloud) (pts : List Int) (hnd : pts.Nodup)
    (h2 : 2 ≤ pts.length) :
    2 * bf_evals pts ≤ pts.length.factorial ∧
    (c.bf_fold pts).2.2 = (pts.permutations.foldl dedupStep ([], 0)).1 := by
  constructor
  · have hcount : bf_evals pts = (processedList [] pts.permutations).length := by
      rw [bf_evals, dedup_foldl_count]
      simp
    have hLnd : pts.permutations.Nodup := List.nodup_permutations pts hnd
    have hPrSub : List.Sublist (processedList [] pts.permutations) pts.permutations :=
      processedList_sublist _ _
    have hPrNodup : (processedList [] pts.permutations).Nodup := hPrSub.nodup hLnd
    have hRevNodup : ((processedList [] pts.permutations).map List.reverse).Nodup :=
      hPrNodup.map List.reverse_injective
    have hdisj : List.Disjoint (processedList [] pts.permutations)
        ((processedList [] pts.permutations).map List.reverse) := by
      intro a ha hamap
      obtain ⟨p, hpPr, hpa⟩ := List.mem_map.mp hamap
      have hrev : p.reverse = p :=
        processedList_no_reverse_pair _ _ p hpPr (by rw [hpa]; exact ha)
      have hpL : p ∈ pts.permutations := hPrSub.subset hpPr
      have hperm : p.Perm pts := List.mem_permutations.mp hpL
      have hpnd : p.Nodup := hperm.symm.nodup hnd
      have hplen : 2 ≤ p.length := by rw [hperm.length_eq]; exact h2
      exact reverse_ne_self_of_nodup p hpnd hplen hrev
    have hnodup : ((processedList [] pts.permutations) ++
        (processedList [] pts.permutations).map List.reverse).Nodup :=
      List.nodup_append.mpr ⟨hPrNodup, hRevNodup, hdisj⟩
    have hsubL : ((processedList [] pts.permutations) ++
        (processedList [] pts.permutations).map List.reverse) ⊆ pts.permutations := by
      intro a ha
      rcases List.mem_append.mp ha with h1 | h1
      · exact hPrSub.subset h1
      · obtain ⟨p, hpPr, hpa⟩ := List.mem_map.mp h1
        have hpL : p ∈ pts.permutations := hPrSub.subset hpPr
        have hperm : p.Perm pts := List.mem_permutations.mp hpL
        rw [← hpa]
        exact List.mem_permutations.mpr ((p.reverse_perm).trans hperm)
    have hlen := (List.subperm_of_subset hnodup hsubL).length_le
    rw [List.length_append, List.length_map, List.length_permutations] at hlen
    rw [hcount]
    omega
  · exact bf_fold_cal_eq c pts.permutations (f64MAX, [], []) [] 0 rfl

/-- Witness for C7 on three points: at most 3 of the 6 permutations are
scored, and the instrumented fold matches the real one on `wCloud3`. -/
theorem brute_force_eval_count_witness :
    2 * bf_evals [1, 2, 3] ≤ [1, 2, 3].length.factorial ∧
    (wCloud3.bf_fold [1, 2, 3]).2.2 =
      ([1, 2, 3].permutations.foldl dedupStep ([], 0)).1 :=
  brute_force_eval_count wCloud3 [1, 2, 3] (by decide) (by decide)

/- ## Lookup characterization of the distance loop of `add` -/

/-- Raw nested lookup into a distance table (so that the fold of `add` can be
characterized independently of the `Cloud` record). -/
def dlookup (f : Int → Option (Int → Option ℝ)) (a b : Int) : Option ℝ :=
  match f a with
  | some m => m b
  | none => none

/-- `distance_between` is the raw lookup on the cache's table. -/
theorem distance_between_eq_dlookup (c : Cloud) (a b : Int) :
    c.distance_between a b = dlookup c.distances a b := rfl

/-- Lookup after one store. -/
theorem dlookup_storeOne (f : Int → Option (Int → Option ℝ)) (k dest : Int) (v : ℝ)
    (x y : Int) :
    dlookup (storeOne f k dest v) x y =
      if x = k then (if y = dest then some v else dlookup f k y) else dlookup f x y := by
  unfold dlookup storeOne
  by_cases hx : x = k
  · by_cases hy : y = dest
    · simp [hx, hy]
    · simp only [hx, if_pos, if_true, hy, if_neg, if_false, ite_true, ite_false]
      cases f k <;> simp
  · simp [hx]

/-- Lookup after the symmetric double store of one loop iteration of `add`. -/
theorem dlookup_store2 (f : Int → Option (Int → Option ℝ)) (id dest : Int) (v : ℝ)
    (x y : Int) :
    dlookup (storeOne (storeOne f id dest v) dest id v) x y =
      if x = id ∧ y = dest then some v
      else if x = dest ∧ y = id then some v
      else if x = id then dlookup f id y
      else if x = dest then dlookup f dest y
      else dlookup f x y := by
  simp only [dlookup_storeOne]
  by_cases h1 : x = dest <;> by_cases h2 : x = id <;>
    by_cases h3 : y = id <;> by_cases h4 : y = dest <;>
    simp_all

/-- First-match association lookup in the point registry. -/
def lookupKey (k : Int) : List (Int × Place) → Option Place
  | [] => none
  | (k2, v) :: rest => if k = k2 then some v else lookupKey k rest

/-- A key outside the registry finds nothing. -/
theorem lookupKey_eq_none :
    ∀ {L : List (Int × Place)} {k : Int}, k ∉ L.map Prod.fst → lookupKey k L = none := by
  intro L
  induction L with
  | nil => intro k h; rfl
  | cons pr rest ih =>
    intro k h
    obtain ⟨k2, v⟩ := pr
    simp only [List.map_cons, List.mem_cons] at h
    push_neg at h
    rw [lookupKey, if_neg h.1]
    exact ih h.2

/-- With duplicate-free keys, membership determines the lookup. -/
theorem lookupKey_of_mem :
    ∀ {L : List (Int × Place)} {k : Int} {v : Place},
      (L.map Prod.fst).Nodup → (k, v) ∈ L → lookupKey k L = some v := by
  intro L
  induction L with
  | nil => intro k v _ h; cases h
  | cons pr rest ih =>
    intro k v hnd hmem
    obtain ⟨k2, v2⟩ := pr
    simp only [List.map_cons, List.nodup_cons] at hnd
    rcases List.mem_cons.mp hmem with h1 | h2
    · obtain ⟨hk, hv⟩ := Prod.ext_iff.mp h1
      rw [lookupKey, if_pos hk]
      exact congrArg some hv.symm
    · have hk2 : k ≠ k2 := by
        intro hkk
        subst hkk
        exact hnd.1 (List.mem_map_of_mem Prod.fst h2)
      rw [lookupKey, if_neg hk2]
      exact ih hnd.2 h2

/-- Full characterization of the distance table after the `add` loop over the
registry `L` (whose keys are duplicate-free): pairs `(id, dest)` and
`(dest, id)` hold the freshly computed distance for every `dest` of `L`,
everything else is unchanged. -/
theorem dlookup_addDists (pos : Position) (id : Int) :
    ∀ (L : List (Int × Place)) (f : Int → Option (Int → Option ℝ)) (x y : Int),
      (L.map Prod.fst).Nodup →
      dlookup (addDists pos id L f) x y =
        if x = id then
          (match lookupKey y L with
            | some q => some (Position.distance pos q.position)
            | none => dlookup f id y)
        else
          (match lookupKey x L with
            | some q => if y = id then some (Position.distance pos q.position)
                        else dlookup f x y
            | none => dlookup f x y) := by
  intro L
  induction L with
  | nil =>
    intro f x y _
    by_cases hx : x = id <;> simp [addDists, lookupKey, hx]
  | cons pr rest ih =>
    intro f x y hnd
    obtain ⟨dest, q⟩ := pr
    rw [List.map_cons, List.nodup_cons] at hnd
    have hnone : lookupKey dest rest = none := lookupKey_eq_none hnd.1
    rw [addDists, ih _ x y hnd.2]
    simp only [lookupKey]
    by_cases hx : x = id
    · subst hx
      rw [if_pos rfl, if_pos rfl]
      by_cases hy : y = dest
      · subst hy
        rw [if_pos rfl, hnone, dlookup_store2]
        simp
      · rw [if_neg hy]
        rcases hk : lookupKey y rest with _ | q2
        · rw [dlookup_store2]
          by_cases hid : x = dest <;> by_cases hyid : y = x <;> simp_all
        · rfl
    · rw [if_neg hx, if_neg hx]
      by_cases hxd : x = dest
      · subst hxd
        rw [if_pos rfl, hnone, dlookup_store2]
        by_cases hy : y = id <;> simp_all
      · rw [if_neg hxd]
        rcases hk : lookupKey x rest with _ | q2
        · rw [dlookup_store2]
          simp_all
        · dsimp only
          by_cases hy : y = id
          · simp [hy]
          · rw [if_neg hy, if_neg hy, dlookup_store2]
            simp_all

/- ## The registry after an insert -/

/-- Keys after a `placesInsert`. -/
theorem mem_keys_placesInsert :
    ∀ (L : List (Int × Place)) (id : Int) (p : Place) (x : Int),
      (x ∈ (placesInsert L id p).map Prod.fst) ↔ (x = id ∨ x ∈ L.map Prod.fst) := by
  intro L
  induction L with
  | nil => intro id p x; simp [placesInsert]
  | cons pr rest ih =>
    intro id p x
    obtain ⟨k, q⟩ := pr
    by_cases hk : k = id
    · subst hk
      rw [placesInsert, if_pos rfl]
      simp only [List.map_cons, List.mem_cons]
      tauto
    · rw [placesInsert, if_neg hk]
      simp only [List.map_cons, List.mem_cons, ih]
      tauto

/-- `placesInsert` keeps the keys duplicate-free. -/
theorem keys_placesInsert_nodup :
    ∀ (L : List (Int × Place)) (id : Int) (p : Place),
      (L.map Prod.fst).Nodup → ((placesInsert L id p).map Prod.fst).Nodup := by
  intro L
  induction L with
  | nil => intro id p _; simp [placesInsert]
  | cons pr rest ih =>
    intro id p hnd
    obtain ⟨k, q⟩ := pr
    rw [List.map_cons, List.nodup_cons] at hnd
    by_cases hk : k = id
    · subst hk
      rw [placesInsert, if_pos rfl, List.map_cons, List.nodup_cons]
      exact hnd
    · rw [placesInsert, if_neg hk, List.map_cons, List.nodup_cons]
      refine ⟨?_, ih id p hnd.2⟩
      intro hmem
      rcases (mem_keys_placesInsert rest id p k).mp hmem with h1 | h2
      · exact hk h1
      · exact hnd.1 h2

/-- Membership after a `placesInsert` with duplicate-free keys: the new entry,
plus every old entry whose key differs from the inserted one. -/
theorem mem_placesInsert :
    ∀ (L : List (Int × Place)) (id : Int) (p : Place), (L.map Prod.fst).Nodup →
      ∀ (a : Int) (pa : Place),
        ((a, pa) ∈ placesInsert L id p ↔ ((a = id ∧ pa = p) ∨ ((a, pa) ∈ L ∧ a ≠ id))) := by
  intro L
  induction L with
  | nil =>
    intro id p _ a pa
    simp [placesInsert, Prod.ext_iff]
  | cons pr rest ih =>
    intro id p hnd a pa
    obtain ⟨k, q⟩ := pr
    rw [List.map_cons, List.nodup_cons] at hnd
    by_cases hk : k = id
    · subst hk
      rw [placesInsert, if_pos rfl]
      constructor
      · intro h
        rcases List.mem_cons.mp h with h1 | h2
        · obtain ⟨h1a, h1b⟩ := Prod.ext_iff.mp h1
          exact Or.inl ⟨h1a, h1b⟩
        · refine Or.inr ⟨List.mem_cons_of_mem _ h2, ?_⟩
          intro haid
          apply hnd.1
          rw [← haid]
          exact List.mem_map.mpr ⟨(a, pa), h2, rfl⟩
      · intro h
        rcases h with ⟨h1, h2⟩ | ⟨h1, h2⟩
        · subst h1
          subst h2
          exact List.mem_cons_self _ _
        · rcases List.mem_cons.mp h1 with h3 | h4
          · obtain ⟨h3a, _⟩ := Prod.ext_iff.mp h3
            exact absurd h3a h2
          · exact List.mem_cons_of_mem _ h4
    · rw [placesInsert, if_neg hk]
      constructor
      · intro h
        rcases List.mem_cons.mp h with h1 | h2
        · obtain ⟨h1a, _⟩ := Prod.ext_iff.mp h1
          refine Or.inr ⟨List.mem_cons.mpr (Or.inl h1), ?_⟩
          intro haid
          rw [haid] at h1a
          exact hk h1a.symm
        · rcases (ih id p hnd.2 a pa).mp h2 with h3 | ⟨h3, h4⟩
          · exact Or.inl h3
          · exact Or.inr ⟨List.mem_cons_of_mem _ h3, h4⟩
      · intro h
        rcases h with ⟨h1, h2⟩ | ⟨h1, h2⟩
        · exact List.mem_cons_of_mem _ ((ih id p hnd.2 a pa).mpr (Or.inl ⟨h1, h2⟩))
        · rcases List.mem_cons.mp h1 with h3 | h4
          · exact List.mem_cons.mpr (Or.inl h3)
          · exact List.mem_cons_of_mem _ ((ih id p hnd.2 a pa).mpr (Or.inr ⟨h4, h2⟩))

/-- A successful `Place::new` stores the given id, name and position. -/
theorem place_new_fields {id : Int} {name : String} {pos : Position} {belt : Place}
    (h : Place.new id name pos = Except.ok belt) :
    belt.id = id ∧ belt.name = name ∧ belt.position = pos := by
  unfold Place.new at h
  rcases hp : parseLabel name with e | gb <;> rw [hp] at h
  · exact absurd h (by simp)
  · obtain ⟨g, b⟩ := gb
    injection h with h2
    rw [← h2]
    exact ⟨rfl, rfl, rfl⟩

/-- A key of the registry has an entry. -/
theorem exists_entry_of_mem_keys {L : List (Int × Place)} {x : Int}
    (h : x ∈ L.map Prod.fst) : ∃ q, (x, q) ∈ L := by
  obtain ⟨pr, hpr, hfst⟩ := List.mem_map.mp h
  refine ⟨pr.2, ?_⟩
  rw [← hfst]
  exact hpr

/- ## The cache invariant maintained by `add` -/

/-- The invariant every reachable cache satisfies: duplicate-free keys, each
stored place carrying its own key as id, and a fully dense symmetric distance
table over the current point set. -/
def CloudInv (c : Cloud) : Prop :=
  (c.places.map Prod.fst).Nodup ∧
  (∀ pr ∈ c.places, pr.2.id = pr.1) ∧
  (∀ a b : Int, a ≠ b → a ∈ c.places.map Prod.fst → b ∈ c.places.map Prod.fst →
    ∃ d, c.distance_between a b = some d ∧ c.distance_between b a = some d)

/-- One successful `add` preserves the cache invariant. -/
theorem cloudInv_add (c c2 : Cloud) (id : Int) (name : String) (pos : Position)
    (hinv : CloudInv c) (hadd : c.add id name pos = Except.ok c2) : CloudInv c2 := by
  obtain ⟨hnd, hids, hdense⟩ := hinv
  unfold Cloud.add at hadd
  rcases hP : Place.new id name pos with e | belt <;> rw [hP] at hadd
  · exact absurd hadd (by simp)
  · injection hadd with h2
    subst h2
    refine ⟨keys_placesInsert_nodup _ _ _ hnd, ?_, ?_⟩
    · intro pr hpr
      obtain ⟨a, pa⟩ := pr
      rcases (mem_placesInsert c.places id belt hnd a pa).mp hpr with ⟨h1, h2⟩ | ⟨h1, _⟩
      · subst h1
        subst h2
        exact (place_new_fields hP).1
      · exact hids (a, pa) h1
    · intro a b hne ha hb
      rw [mem_keys_placesInsert] at ha hb
      have hdb : ∀ x y : Int,
          Cloud.distance_between
            ⟨placesInsert c.places id belt, addDists pos id c.places c.distances⟩ x y =
            dlookup (addDists pos id c.places c.distances) x y := fun x y => rfl
      by_cases haid : a = id
      · rcases hb with hb1 | hb2
        · exact absurd (haid.trans hb1.symm) hne
        · obtain ⟨qb, hmemb⟩ := exists_entry_of_mem_keys hb2
          have hlk : lookupKey b c.places = some qb := lookupKey_of_mem hnd hmemb
          have hbid : ¬b = id := fun h => hne (haid.trans h.symm)
          refine ⟨Position.distance pos qb.position, ?_, ?_⟩
          · rw [hdb, dlookup_addDists pos id c.places c.distances a b hnd, if_pos haid, hlk]
          · rw [hdb, dlookup_addDists pos id c.places c.distances b a hnd,
              if_neg hbid, hlk]
            dsimp only
            rw [if_pos haid]
      · by_cases hbid : b = id
        · rcases ha with ha1 | ha2
          · exact absurd ha1 haid
          · obtain ⟨qa, hmema⟩ := exists_entry_of_mem_keys ha2
            have hlk : lookupKey a c.places = some qa := lookupKey_of_mem hnd hmema
            refine ⟨Position.distance pos qa.position, ?_, ?_⟩
            · rw [hdb, dlookup_addDists pos id c.places c.distances a b hnd,
                if_neg haid, hlk]
              dsimp only
              rw [if_pos hbid]
            · rw [hdb, dlookup_addDists pos id c.places c.distances b a hnd,
                if_pos hbid, hlk]
        · have ha3 : a ∈ c.places.map Prod.fst := by tauto
          have hb3 : b ∈ c.places.map Prod.fst := by tauto
          obtain ⟨d, hd1, hd2⟩ := hdense a b hne ha3 hb3
          rw [distance_between_eq_dlookup] at hd1 hd2
          refine ⟨d, ?_, ?_⟩
          · rw [hdb, dlookup_addDists pos id c.places c.distances a b hnd, if_neg haid]
            rcases hlk : lookupKey a c.places with _ | qa
            · exact hd1
            · dsimp only
              rw [if_neg hbid]
              exact hd1
          · rw [hdb, dlookup_addDists pos id c.places c.distances b a hnd, if_neg hbid]
            rcases hlk : lookupKey b c.places with _ | qb
            · exact hd2
            · dsimp only
              rw [if_neg haid]
              exact hd2

/-- Every reachable cache satisfies the invariant. -/
theorem reachable_inv : ∀ {c : Cloud}, Reachable c → CloudInv c := by
  intro c hr
  induction hr with
  | nil =>
    refine ⟨by simp [Cloud.new], ?_, ?_⟩
    · intro pr hpr
      simp [Cloud.new] at hpr
    · intro a b hne ha hb
      simp [Cloud.new] at ha
  | step hprev hadd ih => exact cloudInv_add _ _ _ _ _ ih hadd

/- ## C3: the cache is dense and symmetric on every reachable state -/

/-- C3: in every cache reachable by `add` calls, any two distinct present ids
have distance entries both ways holding the same value; `add` preserves this
(the proof is an induction over the reachability derivation whose step case is
exactly preservation by one `add`). -/
theorem add_cache_dense_symmetric (c : Cloud) (hr : Reachable c) (a b : Int) (hne : a ≠ b)
    (ha : ∃ pa, (a, pa) ∈ c.places) (hb : ∃ pb, (b, pb) ∈ c.places) :
    ∃ d, c.distance_between a b = some d ∧ c.distance_between b a = some d := by
  obtain ⟨_, _, hdense⟩ := reachable_inv hr
  obtain ⟨pa, hpa⟩ := ha
  obtain ⟨pb, hpb⟩ := hb
  exact hdense a b hne (List.mem_map_of_mem Prod.fst hpa) (List.mem_map_of_mem Prod.fst hpb)

/- ## Concrete add sequences used as witnesses -/

/-- A well-formed six-token name with Roman group I and sub-index 1. -/
def wName1 : String := "System I - Asteroid Belt 1"

/-- A well-formed six-token name with Roman group I and sub-index 2. -/
def wName2 : String := "System I - Asteroid Belt 2"

/-- Witness position at the origin. -/
def wPosA : Position := ⟨0, 0, 0⟩

/-- Witness position at distance 1 from the origin. -/
def wPosB : Position := ⟨1, 0, 0⟩

/-- Witness position at distance 2 from the origin. -/
def wPosC : Position := ⟨2, 0, 0⟩

/-- Witness for C3: after two concrete `add` calls both directed entries for
the two ids exist and agree. -/
theorem add_cache_dense_symmetric_witness :
    ∃ c : Cloud,
      addAll Cloud.new [(1, wName1, wPosA), (2, wName2, wPosB)] = Except.ok c ∧
      ∃ d, c.distance_between 1 2 = some d ∧ c.distance_between 2 1 = some d := by
  refine ⟨_, rfl, ?_⟩
  exact add_cache_dense_symmetric _
    (@reachable_addAll [(1, wName1, wPosA), (2, wName2, wPosB)] Cloud.new _
      Reachable.nil rfl)
    1 2 (by decide)
    ⟨_, List.mem_cons_self _ _⟩ ⟨_, List.mem_cons_of_mem _ (List.mem_cons_self _ _)⟩

/- ## C10: re-adding an id creates a self-distance entry -/

/-- The Euclidean distance vanishes exactly between equal positions. -/
theorem position_distance_eq_zero_iff (a b : Position) :
    Position.distance a b = 0 ↔ a = b := by
  constructor
  · intro h
    unfold Position.distance at h
    have hS : (a.x - b.x) ^ 2 + (a.y - b.y) ^ 2 + (a.z - b.z) ^ 2 ≤ 0 :=
      Real.sqrt_eq_zero'.mp h
    have hx2 : (a.x - b.x) ^ 2 = 0 :=
      le_antisymm (by nlinarith [sq_nonneg (a.y - b.y), sq_nonneg (a.z - b.z)]) (sq_nonneg _)
    have hy2 : (a.y - b.y) ^ 2 = 0 :=
      le_antisymm (by nlinarith [sq_nonneg (a.x - b.x), sq_nonneg (a.z - b.z)]) (sq_nonneg _)
    have hz2 : (a.z - b.z) ^ 2 = 0 :=
      le_antisymm (by nlinarith [sq_nonneg (a.x - b.x), sq_nonneg (a.y - b.y)]) (sq_nonneg _)
    have hx : a.x = b.x := sub_eq_zero.mp ((pow_eq_zero_iff (two_ne_zero)).mp hx2)
    have hy : a.y = b.y := sub_eq_zero.mp ((pow_eq_zero_iff (two_ne_zero)).mp hy2)
    have hz : a.z = b.z := sub_eq_zero.mp ((pow_eq_zero_iff (two_ne_zero)).mp hz2)
    cases a
    cases b
    simp_all
  · intro h
    subst h
    unfold Position.distance
    simp

/-- C10: calling `add` with an id already stored makes the distance loop visit
the old point under that id, so a self-distance entry appears:
`distance_between id id` afterwards returns the Euclidean distance between the
new and the old position, which is nonzero when the positions differ. -/
theorem add_duplicate_id_self_distance (c c2 : Cloud) (id : Int) (q : Place)
    (hnd : (c.places.map Prod.fst).Nodup) (hmem : (id, q) ∈ c.places)
    (name : String) (pos : Position) (hok : c.add id name pos = Except.ok c2)
    (hne : pos ≠ q.position) :
    c2.distance_between id id = some (Position.distance pos q.position) ∧
    Position.distance pos q.position ≠ 0 := by
  constructor
  · unfold Cloud.add at hok
    rcases hP : Place.new id name pos with e | belt <;> rw [hP] at hok
    · exact absurd hok (by simp)
    · injection hok with h2
      subst h2
      have hdb : Cloud.distance_between
          ⟨placesInsert c.places id belt, addDists pos id c.places c.distances⟩ id id =
          dlookup (addDists pos id c.places c.distances) id id := rfl
      rw [hdb, dlookup_addDists pos id c.places c.distances id id hnd, if_pos rfl,
        lookupKey_of_mem hnd hmem]
  · intro h0
    exact hne ((position_distance_eq_zero_iff pos q.position).mp h0)

/-- The concrete two-point reachable cache used by the C10 witness. -/
noncomputable def wC3cloud : Cloud :=
  (addAll Cloud.new [(1, wName1, wPosA), (2, wName2, wPosB)]).toOption.getD Cloud.new

set_option maxHeartbeats 1600000 in
/-- Witness for C10: insert ids 1 and 2, then re-add id 2 at a new position;
the self-distance entry for id 2 appears and is nonzero. -/
theorem add_duplicate_id_self_distance_witness :
    addAll Cloud.new [(1, wName1, wPosA), (2, wName2, wPosB)] = Except.ok wC3cloud ∧
    ∃ c2 : Cloud,
      wC3cloud.add 2 wName2 wPosC = Except.ok c2 ∧
      (c2.distance_between 2 2 = some (Position.distance wPosC wPosB) ∧
        Position.distance wPosC wPosB ≠ 0) := by
  have hposne : wPosC ≠ wPosB := by
    intro h
    have h2 := congrArg Position.x h
    simp only [wPosC, wPosB] at h2
    norm_num at h2
  refine ⟨rfl, _, rfl, ?_⟩
  exact add_duplicate_id_self_distance wC3cloud _ 2 _ (by decide)
    (List.mem_cons_of_mem _ (List.mem_cons_self _ _)) wName2 wPosC rfl hposne

/- ## C8: the ordinal (baseline) route -/

/-- C8: when every stored place's key fields agree with parsing its name and
each place carries its own registry key as id (both hold on every reachable
cache), `get_ids_sorted_by_name` is the list of all current point ids sorted
ascending by the `(group_ordinal, sub_index)` pair extracted from each name,
and `get_ordinal_route` pairs that list with its `route_distance`. -/
theorem ordinal_route_sorted (c : Cloud)
    (hid : ∀ pr ∈ c.places, pr.2.id = pr.1)
    (hname : ∀ pr ∈ c.places,
      parseLabel pr.2.name = Except.ok (pr.2.cloud_number, pr.2.belt_number)) :
    ∃ sorted : List Place,
      sorted.Perm (c.places.map Prod.snd) ∧
      sorted.Pairwise (fun p q => ∃ kp kq : Nat × Nat,
        parseLabel p.name = Except.ok kp ∧ parseLabel q.name = Except.ok kq ∧
        (kp.1 < kq.1 ∨ (kp.1 = kq.1 ∧ kp.2 ≤ kq.2))) ∧
      c.get_ids_sorted_by_name = sorted.map Place.id ∧
      c.get_ids_sorted_by_name.Perm (c.places.map Prod.fst) ∧
      c.get_ordinal_route = (c.route_distance c.get_ids_sorted_by_name,
        c.get_ids_sorted_by_name) := by
  refine ⟨List.insertionSort keyLe (c.places.map Prod.snd),
    List.perm_insertionSort keyLe _, ?_, rfl, ?_, rfl⟩
  · have hsorted : (List.insertionSort keyLe (c.places.map Prod.snd)).Pairwise keyLe :=
      List.sorted_insertionSort keyLe _
    refine hsorted.imp_of_mem ?_
    intro p q hp hq hle
    have hp2 : p ∈ c.places.map Prod.snd := (List.perm_insertionSort keyLe _).mem_iff.mp hp
    have hq2 : q ∈ c.places.map Prod.snd := (List.perm_insertionSort keyLe _).mem_iff.mp hq
    obtain ⟨prp, hprp, hpeq⟩ := List.mem_map.mp hp2
    obtain ⟨prq, hprq, hqeq⟩ := List.mem_map.mp hq2
    refine ⟨(p.cloud_number, p.belt_number), (q.cloud_number, q.belt_number), ?_, ?_, hle⟩
    · rw [← hpeq]
      exact hname prp hprp
    · rw [← hqeq]
      exact hname prq hprq
  · have hmap : (List.insertionSort keyLe (c.places.map Prod.snd)).map Place.id |>.Perm
        ((c.places.map Prod.snd).map Place.id) :=
      (List.perm_insertionSort keyLe _).map Place.id
    have heq : (c.places.map Prod.snd).map Place.id = c.places.map Prod.fst := by
      rw [List.map_map]
      exact List.map_congr_left (fun pr hpr => hid pr hpr)
    rw [Cloud.get_ids_sorted_by_name]
    rw [heq] at hmap
    exact hmap

/-- Two places with parseable names and distinct keys, used by the C8
witness. -/
def wPl1 : Place := ⟨1, wName1, wPosA, 1, 1⟩

/-- Second witness place. -/
def wPl2 : Place := ⟨2, wName2, wPosB, 1, 2⟩

/-- Witness cache for C8 with parseable names. -/
def wCloud8 : Cloud :=
  ⟨[(1, wPl1), (2, wPl2)], fun _ => none⟩

/-- Witness for C8 on a concrete two-point cache with well-formed names. -/
theorem ordinal_route_sorted_witness :
    ∃ sorted : List Place,
      sorted.Perm (wCloud8.places.map Prod.snd) ∧
      sorted.Pairwise (fun p q => ∃ kp kq : Nat × Nat,
        parseLabel p.name = Except.ok kp ∧ parseLabel q.name = Except.ok kq ∧
        (kp.1 < kq.1 ∨ (kp.1 = kq.1 ∧ kp.2 ≤ kq.2))) ∧
      wCloud8.get_ids_sorted_by_name = sorted.map Place.id ∧
      wCloud8.get_ids_sorted_by_name.Perm (wCloud8.places.map Prod.fst) ∧
      wCloud8.get_ordinal_route = (wCloud8.route_distance wCloud8.get_ids_sorted_by_name,
        wCloud8.get_ids_sorted_by_name) :=
  ordinal_route_sorted wCloud8 (by decide)
    (by
      intro pr hpr
      simp only [wCloud8, List.mem_cons, List.not_mem_nil, or_false] at hpr
      rcases hpr with rfl | rfl <;> rfl)

/- ## Unfolding lemmas for the greedy walk -/

/-- The greedy walk with no remaining point scores the route. -/
theorem lazzy_impl_nil (c : Cloud) (route : List Int) :
    c.lazzy_walker_impl route [] = some (c.route_distance route, route) := by
  rw [Cloud.lazzy_walker_impl]

/-- The greedy walk on an empty route (unreachable from `lazzy_walker`). -/
theorem lazzy_impl_no_last (c : Cloud) (route : List Int) (p : Int) (rest : List Int)
    (hgl : route.getLast? = none) : c.lazzy_walker_impl route (p :: rest) = none := by
  rw [Cloud.lazzy_walker_impl, hgl]

/-- A failed distance lookup inside the sort comparator is a panic. -/
theorem lazzy_impl_lookup_fail (c : Cloud) (route : List Int) (p : Int) (rest : List Int)
    (point : Int) (hgl : route.getLast? = some point)
    (hlook : lookupAll c point (p :: rest) = none) :
    c.lazzy_walker_impl route (p :: rest) = none := by
  rw [Cloud.lazzy_walker_impl, hgl]
  dsimp only
  split
  · rfl
  · rename_i keyed heq
    rw [hlook] at heq
    simp at heq

/-- One successful step of the greedy walk: pop the closest keyed point and
recurse. -/
theorem lazzy_impl_step (c : Cloud) (route : List Int) (p : Int) (rest : List Int)
    (point : Int) (keyed : List (ℝ × Int)) (closest : ℝ × Int)
    (hgl : route.getLast? = some point)
    (hlook : lookupAll c point (p :: rest) = some keyed)
    (hlast : (List.insertionSort descRel keyed).getLast? = some closest) :
    c.lazzy_walker_impl route (p :: rest) =
      c.lazzy_walker_impl (route ++ [closest.2])
        (((List.insertionSort descRel keyed).dropLast).map Prod.snd) := by
  rw [Cloud.lazzy_walker_impl, hgl]
  dsimp only
  split
  · rename_i heq
    rw [hlook] at heq
    simp at heq
  · rename_i keyed2 heq
    rw [hlook] at heq
    injection heq with heq2
    subst heq2
    split
    · rename_i hlast2
      rw [hlast] at hlast2
      simp at hlast2
    · rename_i closest2 hlast2
      rw [hlast] at hlast2
      injection hlast2 with hlast3
      subst hlast3
      rfl

/-- A list with a known last element splits as its front plus that element. -/
theorem eq_dropLast_append_of_getLast? {α : Type} :
    ∀ {l : List α} {a : α}, l.getLast? = some a → l = l.dropLast ++ [a] := by
  intro l
  induction l with
  | nil => intro a h; simp at h
  | cons x t ih =>
    intro a h
    cases t with
    | nil =>
      simp only [List.getLast?_singleton] at h
      injection h with h2
      subst h2
      rfl
    | cons y t2 =>
      rw [List.getLast?_cons_cons] at h
      show x :: (y :: t2) = x :: ((y :: t2).dropLast ++ [a])
      rw [← ih h]

/- ## What a successful greedy walk returns -/

/-- A successful `lazzy_walker_impl` run returns a permutation of the visited
route plus the remaining points, scored by `route_distance`. -/
theorem lazzy_impl_spec (c : Cloud) :
    ∀ (n : Nat) (points route : List Int), points.length = n →
      ∀ (d : ℝ) (r : List Int), c.lazzy_walker_impl route points = some (d, r) →
        r.Perm (route ++ points) ∧ d = c.route_distance r := by
  intro n
  induction n with
  | zero =>
    intro points route hlen d r h
    rw [List.length_eq_zero] at hlen
    subst hlen
    rw [lazzy_impl_nil] at h
    injection h with h2
    rw [Prod.mk.injEq] at h2
    obtain ⟨hd, hr⟩ := h2
    subst hd
    subst hr
    refine ⟨?_, rfl⟩
    rw [List.append_nil]
  | succ n ih =>
    intro points route hlen d r h
    cases points with
    | nil => simp at hlen
    | cons p rest =>
      rcases hgl : route.getLast? with _ | point
      · rw [lazzy_impl_no_last c route p rest hgl] at h
        simp at h
      · rcases hlook : lookupAll c point (p :: rest) with _ | keyed
        · rw [lazzy_impl_lookup_fail c route p rest point hgl hlook] at h
          simp at h
        · have hklen : keyed.length = (p :: rest).length := lookupAll_length hlook
          have hsortlen : (List.insertionSort descRel keyed).length = keyed.length :=
            (List.perm_insertionSort descRel keyed).length_eq
          have hsne : List.insertionSort descRel keyed ≠ [] := by
            intro h0
            have h1 : keyed.length = 0 := by rw [← hsortlen, h0]; rfl
            rw [hklen] at h1
            simp at h1
          obtain ⟨closest, hlast⟩ :=
            Option.isSome_iff_exists.mp (List.getLast?_isSome.mpr hsne)
          rw [lazzy_impl_step c route p rest point keyed closest hgl hlook hlast] at h
          have hlen2 : (((List.insertionSort descRel keyed).dropLast).map Prod.snd).length
              = n := by
            rw [List.length_map, List.length_dropLast, hsortlen, hklen]
            simp only [List.length_cons] at hlen ⊢
            omega
          obtain ⟨hperm, hdist⟩ := ih _ _ hlen2 d r h
          refine ⟨?_, hdist⟩
          have hsorted_eq : List.insertionSort descRel keyed =
              (List.insertionSort descRel keyed).dropLast ++ [closest] :=
            eq_dropLast_append_of_getLast? hlast
          have hmapsnd : ((List.insertionSort descRel keyed).map Prod.snd).Perm (p :: rest)
              := by
            have h1 := (List.perm_insertionSort descRel keyed).map Prod.snd
            rw [lookupAll_map_snd hlook] at h1
            exact h1
          have hmap2 : ((((List.insertionSort descRel keyed).dropLast).map Prod.snd)
              ++ [closest.2]).Perm (p :: rest) := by
            have hsplit : (List.insertionSort descRel keyed).map Prod.snd =
                (((List.insertionSort descRel keyed).dropLast).map Prod.snd)
                  ++ [closest.2] := by
              conv_lhs => rw [hsorted_eq]
              rw [List.map_append]
              rfl
            rw [← hsplit]
            exact hmapsnd
          rw [List.append_assoc] at hperm
          exact hperm.trans (List.Perm.append_left route
            (List.perm_append_comm.trans hmap2))

/- ## Totality of the greedy walk on a dense symmetric cache -/

/-- All comparator lookups succeed when each individual lookup does. -/
theorem lookupAll_total (c : Cloud) (point : Int) :
    ∀ (l : List Int), (∀ a ∈ l, (c.distance_between point a).isSome) →
      ∃ ks, lookupAll c point l = some ks := by
  intro l
  induction l with
  | nil => intro _; exact ⟨[], rfl⟩
  | cons a rest ih =>
    intro h
    obtain ⟨d, hd⟩ := Option.isSome_iff_exists.mp (h a (List.mem_cons_self a rest))
    obtain ⟨ks, hks⟩ := ih (fun b hb => h b (List.mem_cons_of_mem a hb))
    refine ⟨(d, a) :: ks, ?_⟩
    rw [lookupAll, hd, hks]

/-- On a cache whose table is dense over `S`, the greedy walk never hits a
panic branch: any call whose route ends in a point of `S` outside the
remaining duplicate-free points of `S` returns `some`. -/
theorem lazzy_impl_total (c : Cloud) (S : List Int)
    (hdense : ∀ a b : Int, a ≠ b → a ∈ S → b ∈ S → (c.distance_between a b).isSome) :
    ∀ (n : Nat) (points route : List Int), points.length = n → points.Nodup →
      (∀ a ∈ points, a ∈ S) → route ≠ [] →
      (∀ l, route.getLast? = some l → l ∈ S ∧ l ∉ points) →
      (c.lazzy_walker_impl route points).isSome := by
  intro n
  induction n with
  | zero =>
    intro points route hlen _ _ _ _
    rw [List.length_eq_zero] at hlen
    subst hlen
    rw [lazzy_impl_nil]
    rfl
  | succ n ih =>
    intro points route hlen hnd hsub hne hlast
    cases points with
    | nil => simp at hlen
    | cons p rest =>
      obtain ⟨point, hgl⟩ := Option.isSome_iff_exists.mp (List.getLast?_isSome.mpr hne)
      obtain ⟨hptS, hptnot⟩ := hlast point hgl
      have hlookups : ∀ a ∈ p :: rest, (c.distance_between point a).isSome := by
        intro a ha
        refine hdense point a (fun hpa => hptnot ?_) hptS (hsub a ha)
        rw [hpa]
        exact ha
      obtain ⟨keyed, hlook⟩ := lookupAll_total c point (p :: rest) hlookups
      have hklen : keyed.length = (p :: rest).length := lookupAll_length hlook
      have hsortlen : (List.insertionSort descRel keyed).length = keyed.length :=
        (List.perm_insertionSort descRel keyed).length_eq
      have hsne : List.insertionSort descRel keyed ≠ [] := by
        intro h0
        have h1 : keyed.length = 0 := by rw [← hsortlen, h0]; rfl
        rw [hklen] at h1
        simp at h1
      obtain ⟨closest, hlast2⟩ :=
        Option.isSome_iff_exists.mp (List.getLast?_isSome.mpr hsne)
      rw [lazzy_impl_step c route p rest point keyed closest hgl hlook hlast2]
      have hmapsnd_eq : keyed.map Prod.snd = p :: rest := lookupAll_map_snd hlook
      have hsnd_perm : ((List.insertionSort descRel keyed).map Prod.snd).Perm (p :: rest)
          := by
        have h1 := (List.perm_insertionSort descRel keyed).map Prod.snd
        rw [hmapsnd_eq] at h1
        exact h1
      have hsnd_nodup : ((List.insertionSort descRel keyed).map Prod.snd).Nodup :=
        hsnd_perm.symm.nodup hnd
      have hsplit : (List.insertionSort descRel keyed).map Prod.snd =
          (((List.insertionSort descRel keyed).dropLast).map Prod.snd) ++ [closest.2] := by
        conv_lhs => rw [eq_dropLast_append_of_getLast? hlast2]
        rw [List.map_append]
        rfl
      rw [hsplit] at hsnd_nodup hsnd_perm
      have hX_nodup : ((((List.insertionSort descRel keyed).dropLast).map Prod.snd)).Nodup
          := (List.nodup_append.mp hsnd_nodup).1
      have hclosest_not : closest.2 ∉
          ((List.insertionSort descRel keyed).dropLast).map Prod.snd := by
        have hdisj := (List.nodup_append.mp hsnd_nodup).2.2
        intro hmem
        exact hdisj hmem (List.mem_singleton_self _)
      have hsubX : ∀ a ∈ ((List.insertionSort descRel keyed).dropLast).map Prod.snd,
          a ∈ S := by
        intro a ha
        exact hsub a (hsnd_perm.subset (List.mem_append_left _ ha))
      have hclosestS : closest.2 ∈ S :=
        hsub closest.2 (hsnd_perm.subset (List.mem_append_right _
          (List.mem_singleton_self _)))
      have hlenX : ((((List.insertionSort descRel keyed).dropLast).map Prod.snd)).length
          = n := by
        rw [List.length_map, List.length_dropLast, hsortlen, hklen]
        simp only [List.length_cons] at hlen ⊢
        omega
      refine ih _ (route ++ [closest.2]) hlenX hX_nodup hsubX (by simp) ?_
      intro l hl
      rw [List.getLast?_concat] at hl
      injection hl with hl2
      subst hl2
      exact ⟨hclosestS, hclosest_not⟩

/- ## The multi-start loop -/

/-- The loop invariant of `lazzy_walker`: the accumulator is either still the
initial `(f64::MAX, [])` or a genuinely produced route (a permutation of the
point list, scored by `route_distance`). -/
theorem lwLoop_inv (c : Cloud) (pts : List Int) :
    ∀ (count : Nat) (starts : List Int) (acc res : ℝ × List Int),
      starts.Perm pts →
      (acc = (f64MAX, []) ∨ (acc.2.Perm pts ∧ acc.1 = c.route_distance acc.2)) →
      c.lwLoop count starts acc = some res →
      (res = (f64MAX, []) ∨ (res.2.Perm pts ∧ res.1 = c.route_distance res.2)) := by
  intro count
  induction count with
  | zero =>
    intro starts acc res hperm hacc h
    rw [Cloud.lwLoop] at h
    injection h with h2
    rw [← h2]
    exact hacc
  | succ count ih =>
    intro starts acc res hperm hacc h
    cases starts with
    | nil =>
      rw [Cloud.lwLoop] at h
      exact ih [] acc res hperm hacc h
    | cons point tail =>
      rw [Cloud.lwLoop] at h
      rcases himpl : c.lazzy_walker_impl [point] tail with _ | ⟨dist, rt⟩
      · rw [himpl] at h
        simp at h
      · rw [himpl] at h
        dsimp only at h
        have hperm2 : (tail ++ [point]).Perm pts := List.perm_append_comm.trans hperm
        have hspec := lazzy_impl_spec c tail.length tail [point] rfl dist rt himpl
        have hrt : rt.Perm pts := hspec.1.trans hperm
        have hacc2 : ((if dist < acc.1 then (dist, rt) else acc) = (f64MAX, []) ∨
            (((if dist < acc.1 then (dist, rt) else acc)).2.Perm pts ∧
              ((if dist < acc.1 then (dist, rt) else acc)).1 = c.route_distance
                ((if dist < acc.1 then (dist, rt) else acc)).2)) := by
          by_cases hlt : dist < acc.1
          · rw [if_pos hlt]
            exact Or.inr ⟨hrt, hspec.2⟩
          · rw [if_neg hlt]
            exact hacc
        exact ih _ _ res hperm2 hacc2 h

/-- On a dense cache the whole multi-start loop is total. -/
theorem lwLoop_total (c : Cloud) (S : List Int)
    (hdense : ∀ a b : Int, a ≠ b → a ∈ S → b ∈ S → (c.distance_between a b).isSome)
    (pts : List Int) (hnd : pts.Nodup) (hsub : ∀ a ∈ pts, a ∈ S) :
    ∀ (count : Nat) (starts : List Int) (acc : ℝ × List Int), starts.Perm pts →
      (c.lwLoop count starts acc).isSome := by
  intro count
  induction count with
  | zero =>
    intro starts acc _
    rw [Cloud.lwLoop]
    rfl
  | succ count ih =>
    intro starts acc hperm
    cases starts with
    | nil =>
      rw [Cloud.lwLoop]
      exact ih [] acc hperm
    | cons point tail =>
      rw [Cloud.lwLoop]
      have hndstarts : (point :: tail).Nodup := hperm.symm.nodup hnd
      have himpl : (c.lazzy_walker_impl [point] tail).isSome := by
        refine lazzy_impl_total c S hdense tail.length tail [point] rfl
          (List.nodup_cons.mp hndstarts).2 ?_ (by simp) ?_
        · intro a ha
          exact hsub a (hperm.subset (List.mem_cons_of_mem _ ha))
        · intro l hl
          rw [show ([point] : List Int).getLast? = some point from rfl] at hl
          injection hl with hl2
          subst hl2
          exact ⟨hsub point (hperm.subset (List.mem_cons_self _ _)),
            (List.nodup_cons.mp hndstarts).1⟩
      obtain ⟨dr, heq⟩ := Option.isSome_iff_exists.mp himpl
      obtain ⟨dist, rt⟩ := dr
      rw [heq]
      dsimp only
      exact ih (tail ++ [point]) _ (List.perm_append_comm.trans hperm)

/- ## C4: the heuristic never beats the exact solver -/

/-- C4: on a symmetric cache with between 3 and 9 points, any route the
heuristic solver produces scores at least the exact solver's minimum. -/
theorem heuristic_at_least_exact (c : Cloud)
    (hsym : ∀ a b, c.distance_between a b = c.distance_between b a)
    (hlow : 3 ≤ c.get_ids_sorted_by_name.length)
    (hhigh : c.get_ids_sorted_by_name.length ≤ 9)
    (d : ℝ) (r : List Int)
    (hlz : c.lazzy_walker c.get_ids_sorted_by_name = some (d, r)) :
    (c.brute_force c.get_ids_sorted_by_name).1 ≤ d := by
  have hinv := bf_fold_inv c hsym c.get_ids_sorted_by_name.permutations [] (f64MAX, [], [])
    ⟨fun q hq => absurd hq (List.not_mem_nil q), rfl, Or.inl ⟨rfl, rfl⟩⟩
  rw [List.nil_append] at hinv
  have hmin : (c.bf_fold c.get_ids_sorted_by_name).1 =
      (c.get_ids_sorted_by_name.permutations.map c.route_distance).foldr min f64MAX :=
    hinv.2.1
  have hbf : (c.brute_force c.get_ids_sorted_by_name).1 =
      (c.bf_fold c.get_ids_sorted_by_name).1 := rfl
  rw [Cloud.lazzy_walker] at hlz
  have hres := lwLoop_inv c c.get_ids_sorted_by_name _ _ _ (d, r)
    (List.Perm.refl _) (Or.inl rfl) hlz
  rcases hres with h1 | ⟨hperm, hdist⟩
  · have hd : d = f64MAX := (Prod.ext_iff.mp h1).1
    rw [hbf, hmin, hd]
    exact foldr_min_le_init _ _ _
  · rw [hbf, hmin]
    have hdist2 : d = c.route_distance r := hdist
    rw [hdist2]
    exact foldr_min_le_mem _ _ (List.mem_permutations.mpr hperm)

/- ## C9: the heuristic solver is total on reachable caches -/

/-- On a cache whose stored places carry their registry keys as ids, the
sorted id list is a permutation of the keys. -/
theorem gisbn_perm_keys (c : Cloud) (hid : ∀ pr ∈ c.places, pr.2.id = pr.1) :
    c.get_ids_sorted_by_name.Perm (c.places.map Prod.fst) := by
  have hmap := (List.perm_insertionSort keyLe (c.places.map Prod.snd)).map Place.id
  have heq : (c.places.map Prod.snd).map Place.id = c.places.map Prod.fst := by
    rw [List.map_map]
    exact List.map_congr_left (fun pr hpr => hid pr hpr)
  rw [Cloud.get_ids_sorted_by_name]
  rw [heq] at hmap
  exact hmap

/-- C9: on every cache built solely through `add` (so the dense-and-symmetric
invariant holds; on the real-number model no stored distance is a NaN), the
heuristic solver's lookups and comparisons never hit a panic branch, and
`get_best_route` is total — in particular on the `n ≥ 10` heuristic branch. -/
theorem heuristic_total (c : Cloud) (hr : Reachable c) :
    (10 ≤ c.get_ids_sorted_by_name.length →
      (c.lazzy_walker c.get_ids_sorted_by_name).isSome) ∧
    c.get_best_route.isSome := by
  obtain ⟨hnd, hids, hdenseInv⟩ := reachable_inv hr
  have hperm : c.get_ids_sorted_by_name.Perm (c.places.map Prod.fst) :=
    gisbn_perm_keys c hids
  have hgnd : c.get_ids_sorted_by_name.Nodup := hperm.symm.nodup hnd
  have hdense2 : ∀ a b : Int, a ≠ b → a ∈ c.get_ids_sorted_by_name →
      b ∈ c.get_ids_sorted_by_name → (c.distance_between a b).isSome := by
    intro a b hne ha hb
    obtain ⟨d2, hd2, _⟩ := hdenseInv a b hne (hperm.subset ha) (hperm.subset hb)
    rw [hd2]
    rfl
  have hlz : (c.lazzy_walker c.get_ids_sorted_by_name).isSome := by
    rw [Cloud.lazzy_walker]
    exact lwLoop_total c c.get_ids_sorted_by_name hdense2 c.get_ids_sorted_by_name hgnd
      (fun a ha => ha) _ _ _ (List.Perm.refl _)
  refine ⟨fun _ => hlz, ?_⟩
  simp only [Cloud.get_best_route, List.isEmpty_eq_true]
  by_cases h0 : c.get_ids_sorted_by_name = []
  · rw [if_pos h0]
    rfl
  · rw [if_neg h0]
    by_cases h1 : c.get_ids_sorted_by_name.length = 1
    · rw [if_pos h1]
      rfl
    · rw [if_neg h1]
      by_cases h2 : c.get_ids_sorted_by_name.length = 2
      · rw [if_pos h2]
        rfl
      · rw [if_neg h2]
        by_cases h3 : c.get_ids_sorted_by_name.length < 10
        · rw [if_pos h3]
          rfl
        · rw [if_neg h3]
          exact hlz

/-- Ten add calls with well-formed names and collinear positions, for the C9
witness. -/
def wTriples10 : List (Int × String × Position) :=
  [(1, "System I - Asteroid Belt 1", ⟨0, 0, 0⟩),
   (2, "System I - Asteroid Belt 2", ⟨1, 0, 0⟩),
   (3, "System I - Asteroid Belt 3", ⟨2, 0, 0⟩),
   (4, "System I - Asteroid Belt 4", ⟨3, 0, 0⟩),
   (5, "System I - Asteroid Belt 5", ⟨4, 0, 0⟩),
   (6, "System I - Asteroid Belt 6", ⟨5, 0, 0⟩),
   (7, "System I - Asteroid Belt 7", ⟨6, 0, 0⟩),
   (8, "System I - Asteroid Belt 8", ⟨7, 0, 0⟩),
   (9, "System I - Asteroid Belt 9", ⟨8, 0, 0⟩),
   (10, "System I - Asteroid Belt 10", ⟨9, 0, 0⟩)]

/-- The concrete ten-point reachable cache used by the C9 witness. -/
noncomputable def wC9cloud : Cloud :=
  (addAll Cloud.new wTriples10).toOption.getD Cloud.new

set_option maxHeartbeats 1600000 in
/-- Witness for C9: a concrete reachable ten-point cache on which both the
heuristic solver and `get_best_route` return a result. -/
theorem heuristic_total_witness :
    addAll Cloud.new wTriples10 = Except.ok wC9cloud ∧
    (wC9cloud.lazzy_walker wC9cloud.get_ids_sorted_by_name).isSome ∧
    wC9cloud.get_best_route.isSome := by
  have hr : Reachable wC9cloud :=
    @reachable_addAll wTriples10 Cloud.new wC9cloud Reachable.nil rfl
  have h := heuristic_total wC9cloud hr
  exact ⟨rfl, h.1 (by decide), h.2⟩

set_option maxHeartbeats 800000 in
/-- Witness for C4: on the three-point cache with constant stored distance 1
the heuristic solver concretely returns the route `[1, 3, 2]` of length 2, and
the exact solver's minimum is at most that. -/
theorem heuristic_at_least_exact_witness :
    wCloud3.lazzy_walker wCloud3.get_ids_sorted_by_name = some (2, [1, 3, 2]) ∧
    (wCloud3.brute_force wCloud3.get_ids_sorted_by_name).1 ≤ 2 := by
  have hsort2 : ∀ a b : Int, List.insertionSort descRel [((1 : ℝ), a), ((1 : ℝ), b)] =
      [((1 : ℝ), a), ((1 : ℝ), b)] := by
    intro a b
    norm_num [List.insertionSort, List.orderedInsert, descRel]
  have hrdA : wCloud3.route_distance [1, 3, 2] = 2 := by
    norm_num [Cloud.route_distance, Cloud.distance_between, wCloud3]
  have hrdB : wCloud3.route_distance [2, 1, 3] = 2 := by
    norm_num [Cloud.route_distance, Cloud.distance_between, wCloud3]
  have hrdC : wCloud3.route_distance [3, 2, 1] = 2 := by
    norm_num [Cloud.route_distance, Cloud.distance_between, wCloud3]
  have himplA : wCloud3.lazzy_walker_impl [1] [2, 3] = some (2, [1, 3, 2]) := by
    rw [lazzy_impl_step wCloud3 [1] 2 [3] 1 [((1 : ℝ), 2), ((1 : ℝ), 3)] ((1 : ℝ), 3)
      rfl rfl (by rw [hsort2 2 3]; rfl)]
    rw [hsort2 2 3]
    show wCloud3.lazzy_walker_impl [1, 3] [2] = some (2, [1, 3, 2])
    rw [lazzy_impl_step wCloud3 [1, 3] 2 [] 3 [((1 : ℝ), 2)] ((1 : ℝ), 2) rfl rfl rfl]
    show wCloud3.lazzy_walker_impl [1, 3, 2] [] = some (2, [1, 3, 2])
    rw [lazzy_impl_nil, hrdA]
  have himplB : wCloud3.lazzy_walker_impl [2] [3, 1] = some (2, [2, 1, 3]) := by
    rw [lazzy_impl_step wCloud3 [2] 3 [1] 2 [((1 : ℝ), 3), ((1 : ℝ), 1)] ((1 : ℝ), 1)
      rfl rfl (by rw [hsort2 3 1]; rfl)]
    rw [hsort2 3 1]
    show wCloud3.lazzy_walker_impl [2, 1] [3] = some (2, [2, 1, 3])
    rw [lazzy_impl_step wCloud3 [2, 1] 3 [] 1 [((1 : ℝ), 3)] ((1 : ℝ), 3) rfl rfl rfl]
    show wCloud3.lazzy_walker_impl [2, 1, 3] [] = some (2, [2, 1, 3])
    rw [lazzy_impl_nil, hrdB]
  have himplC : wCloud3.lazzy_walker_impl [3] [1, 2] = some (2, [3, 2, 1]) := by
    rw [lazzy_impl_step wCloud3 [3] 1 [2] 3 [((1 : ℝ), 1), ((1 : ℝ), 2)] ((1 : ℝ), 2)
      rfl rfl (by rw [hsort2 1 2]; rfl)]
    rw [hsort2 1 2]
    show wCloud3.lazzy_walker_impl [3, 2] [1] = some (2, [3, 2, 1])
    rw [lazzy_impl_step wCloud3 [3, 2] 1 [] 2 [((1 : ℝ), 1)] ((1 : ℝ), 1) rfl rfl rfl]
    show wCloud3.lazzy_walker_impl [3, 2, 1] [] = some (2, [3, 2, 1])
    rw [lazzy_impl_nil, hrdC]
  have hMAX : (2 : ℝ) < f64MAX := by norm_num [f64MAX]
  have hno : ¬((2 : ℝ) < 2) := by norm_num
  have hlw : wCloud3.lazzy_walker wCloud3.get_ids_sorted_by_name = some (2, [1, 3, 2]) := by
    rw [show wCloud3.get_ids_sorted_by_name = [1, 2, 3] from rfl, Cloud.lazzy_walker]
    show wCloud3.lwLoop (Nat.succ 2) [1, 2, 3] (f64MAX, []) = some (2, [1, 3, 2])
    rw [Cloud.lwLoop, himplA]
    dsimp only
    rw [if_pos hMAX]
    show wCloud3.lwLoop (Nat.succ 1) [2, 3, 1] ((2 : ℝ), [1, 3, 2]) = some (2, [1, 3, 2])
    rw [Cloud.lwLoop, himplB]
    dsimp only
    rw [if_neg hno]
    show wCloud3.lwLoop (Nat.succ 0) [3, 1, 2] ((2 : ℝ), [1, 3, 2]) = some (2, [1, 3, 2])
    rw [Cloud.lwLoop, himplC]
    dsimp only
    rw [if_neg hno]
    show wCloud3.lwLoop 0 [1, 2, 3] ((2 : ℝ), [1, 3, 2]) = some (2, [1, 3, 2])
    rw [Cloud.lwLoop]
  exact ⟨hlw, heuristic_at_least_exact wCloud3 (fun a b => rfl) (by decide) (by decide)
    2 [1, 3, 2] hlw⟩
